import Mathlib

/-!
Shallow embedding of `src/receptor/buffers/file.py` (the `DurableBuffer`
file-backed message buffer) and proofs about its behaviour.

Modelling conventions used throughout:

* Python `datetime.datetime` values are modelled by the `Datetime` structure
  below, together with executable `isoformat` / `fromisoformat` functions
  mirroring the naive-datetime ISO-8601 rendering that `ManifestEncoder` and
  `ManifestDecoder` rely on.
* Python strings are modelled as `List Char`, raw payload bytes as `List Nat`.
* JSON/Python structured values are modelled by `PyValue`; the text layer of
  `json.dump` / `json.load` is lossless for these values, so a manifest file on
  disk is modelled as `Option (Except (List Char) PyValue)`:
  `none` = file absent, `.error raw` = a file whose text does not parse as JSON
  (its raw content is `raw`), `.ok j` = a file whose text parses to `j`.
* `uuid.uuid4()` and `datetime.datetime.utcnow()` are reads of the environment;
  operations that call them take the produced value as an explicit argument.
* Each buffer operation is modelled as run to completion (the event loop
  serialises the manifest mutations through `_manifest_lock`).
-/

namespace Receptor

/-- Model of a (naive) Python `datetime.datetime` value: the seven calendar
fields carried by `isoformat`. -/
structure Datetime where
  year : Nat
  month : Nat
  day : Nat
  hour : Nat
  minute : Nat
  second : Nat
  microsecond : Nat
deriving DecidableEq, Repr

/-- Field bounds of a real Python `datetime` (`MINYEAR = 1`, `MAXYEAR = 9999`,
months 1-12, days 1-31, microseconds < 10^6). -/
def Datetime.validB (d : Datetime) : Bool :=
  1 ≤ d.year && d.year ≤ 9999 && 1 ≤ d.month && d.month ≤ 12 &&
  1 ≤ d.day && d.day ≤ 31 && d.hour ≤ 23 && d.minute ≤ 59 &&
  d.second ≤ 59 && d.microsecond ≤ 999999

/-- Python's lexicographic comparison of naive datetimes, `a < b`. -/
def Datetime.lt (a b : Datetime) : Bool :=
  if a.year ≠ b.year then a.year < b.year
  else if a.month ≠ b.month then a.month < b.month
  else if a.day ≠ b.day then a.day < b.day
  else if a.hour ≠ b.hour then a.hour < b.hour
  else if a.minute ≠ b.minute then a.minute < b.minute
  else if a.second ≠ b.second then a.second < b.second
  else a.microsecond < b.microsecond

/-- The decimal digit character for `n` (`n ≤ 9`): ASCII `'0' + n`. -/
def dChar (n : Nat) : Char := Char.ofNat (48 + n)

/-- Numeric value of a decimal digit character. -/
def dVal (c : Char) : Nat := c.toNat - 48

/-- Is `c` an ASCII decimal digit? -/
def isDig (c : Char) : Bool := 48 ≤ c.toNat && c.toNat ≤ 57

/-- Python `datetime.isoformat()` for a naive datetime: `YYYY-MM-DDTHH:MM:SS`, with
`.ffffff` appended exactly when the microsecond field is nonzero. -/
def Datetime.isoformat (d : Datetime) : List Char :=
  dChar (d.year / 1000 % 10) :: dChar (d.year / 100 % 10) ::
  dChar (d.year / 10 % 10) :: dChar (d.year % 10) :: '-' ::
  dChar (d.month / 10 % 10) :: dChar (d.month % 10) :: '-' ::
  dChar (d.day / 10 % 10) :: dChar (d.day % 10) :: 'T' ::
  dChar (d.hour / 10 % 10) :: dChar (d.hour % 10) :: ':' ::
  dChar (d.minute / 10 % 10) :: dChar (d.minute % 10) :: ':' ::
  dChar (d.second / 10 % 10) :: dChar (d.second % 10) ::
  (if d.microsecond = 0 then [] else
    '.' :: dChar (d.microsecond / 100000 % 10) :: dChar (d.microsecond / 10000 % 10) ::
    dChar (d.microsecond / 1000 % 10) :: dChar (d.microsecond / 100 % 10) ::
    dChar (d.microsecond / 10 % 10) :: dChar (d.microsecond % 10) :: [])

/-- Parse two decimal digit characters. -/
def parse2 (a b : Char) : Option Nat :=
  if isDig a && isDig b then some (dVal a * 10 + dVal b) else none

/-- Parse four decimal digit characters. -/
def parse4 (a b c d : Char) : Option Nat :=
  if isDig a && isDig b && isDig c && isDig d then
    some (dVal a * 1000 + dVal b * 100 + dVal c * 10 + dVal d)
  else none

/-- Parse six decimal digit characters. -/
def parse6 (a b c d e f : Char) : Option Nat :=
  if isDig a && isDig b && isDig c && isDig d && isDig e && isDig f then
    some (dVal a * 100000 + dVal b * 10000 + dVal c * 1000 + dVal d * 100 +
      dVal e * 10 + dVal f)
  else none

/-- Python `datetime.datetime.fromisoformat` restricted to the two shapes
`isoformat` emits (with and without a microsecond part); any other input is a
`ValueError`, modelled as `none`. -/
def Datetime.fromisoformat : List Char → Option Datetime
  | [y1, y2, y3, y4, c1, m1, m2, c2, d1, d2, c3,
     h1, h2, c4, n1, n2, c5, s1, s2] =>
    if c1 = '-' && c2 = '-' && c3 = 'T' && c4 = ':' && c5 = ':' then do
      let y ← parse4 y1 y2 y3 y4
      let mo ← parse2 m1 m2
      let da ← parse2 d1 d2
      let h ← parse2 h1 h2
      let mi ← parse2 n1 n2
      let s ← parse2 s1 s2
      pure ⟨y, mo, da, h, mi, s, 0⟩
    else none
  | [y1, y2, y3, y4, c1, m1, m2, c2, d1, d2, c3,
     h1, h2, c4, n1, n2, c5, s1, s2, c6, u1, u2, u3, u4, u5, u6] =>
    if c1 = '-' && c2 = '-' && c3 = 'T' && c4 = ':' && c5 = ':' && c6 = '.' then do
      let y ← parse4 y1 y2 y3 y4
      let mo ← parse2 m1 m2
      let da ← parse2 d1 d2
      let h ← parse2 h1 h2
      let mi ← parse2 n1 n2
      let s ← parse2 s1 s2
      let us ← parse6 u1 u2 u3 u4 u5 u6
      pure ⟨y, mo, da, h, mi, s, us⟩
    else none
  | _ => none

/-- Payload-file identifier (`str(uuid.uuid4())` in the source). -/
abbrev Ident := List Char

/-- A queue entry: the dict `{"ident": ..., "expire_time": ...}` built in
`DurableBuffer.put`. -/
structure Item where
  ident : Ident
  expire_time : Datetime
deriving DecidableEq, Repr

/-- Python/JSON structured values, restricted to the shapes the manifest
uses: strings, datetimes, lists and string-keyed dicts. -/
inductive PyValue where
  | pstr : List Char → PyValue
  | pdt : Datetime → PyValue
  | plist : List PyValue → PyValue
  | pdict : List (List Char × PyValue) → PyValue

def typeKey : List Char := '_' :: 't' :: 'y' :: 'p' :: 'e' :: []

def valueKey : List Char := 'v' :: 'a' :: 'l' :: 'u' :: 'e' :: []

def identKey : List Char := 'i' :: 'd' :: 'e' :: 'n' :: 't' :: []

def expTimeKey : List Char :=
  'e' :: 'x' :: 'p' :: 'i' :: 'r' :: 'e' :: '_' :: 't' :: 'i' :: 'm' :: 'e' :: []

/-- The tag string `"datetime.datetime"` used by `ManifestEncoder`. -/
def dtTag : List Char :=
  'd' :: 'a' :: 't' :: 'e' :: 't' :: 'i' :: 'm' :: 'e' :: '.' ::
  'd' :: 'a' :: 't' :: 'e' :: 't' :: 'i' :: 'm' :: 'e' :: []

mutual

/-- Model of `json.dump(.., cls=ManifestEncoder)`: the serializer walks the value and
calls `ManifestEncoder.default` on each `datetime`, which replaces it by
`{"_type": "datetime.datetime", "value": o.isoformat()}`. -/
def encodePy : PyValue → PyValue
  | .pstr s => .pstr s
  | .pdt d => .pdict [(typeKey, .pstr dtTag), (valueKey, .pstr d.isoformat)]
  | .plist l => .plist (encodePyList l)
  | .pdict l => .pdict (encodePyDict l)

def encodePyList : List PyValue → List PyValue
  | [] => []
  | v :: vs => encodePy v :: encodePyList vs

def encodePyDict : List (List Char × PyValue) → List (List Char × PyValue)
  | [] => []
  | (k, v) :: vs => (k, encodePy v) :: encodePyDict vs

end

/-- The hook `ManifestDecoder.object_hook`: called on every parsed JSON object;
reconstructs a `datetime` from a tagged dict and returns any other dict
unchanged.  A tagged dict whose `value` entry is missing, has the wrong type,
or does not parse raises (`KeyError` / `ValueError`), modelled as `none`. -/
def objectHook (o : List (List Char × PyValue)) : Option PyValue :=
  match List.lookup typeKey o with
  | some (.pstr t) =>
    if t = dtTag then
      match List.lookup valueKey o with
      | some (.pstr v) => (Datetime.fromisoformat v).map .pdt
      | some _ => none
      | none => none
    else some (.pdict o)
  | some _ => some (.pdict o)
  | none => some (.pdict o)

mutual

/-- Model of `json.load(.., cls=ManifestDecoder)` applied to an already-parsed JSON
value: the decoder applies `object_hook` to every object, innermost first. -/
def decodePy : PyValue → Option PyValue
  | .pstr s => some (.pstr s)
  | .pdt d => some (.pdt d)
  | .plist l => (decodePyList l).map .plist
  | .pdict l => (decodePyDict l).bind objectHook

def decodePyList : List PyValue → Option (List PyValue)
  | [] => some []
  | v :: vs =>
    match decodePy v, decodePyList vs with
    | some w, some ws => some (w :: ws)
    | _, _ => none

def decodePyDict :
    List (List Char × PyValue) → Option (List (List Char × PyValue))
  | [] => some []
  | (k, v) :: vs =>
    match decodePy v, decodePyDict vs with
    | some w, some ws => some ((k, w) :: ws)
    | _, _ => none

end

/-- The Python dict a queue item is, as a structured value. -/
def itemToPy (i : Item) : PyValue :=
  .pdict [(identKey, .pstr i.ident), (expTimeKey, .pdt i.expire_time)]

/-- Reading the `"ident"` / `"expire_time"` entries of a decoded queue item
(as `get` and `expire` do with `msg["ident"]` / `item["expire_time"]`). -/
def pyToItem : PyValue → Option Item
  | .pdict o =>
    match List.lookup identKey o, List.lookup expTimeKey o with
    | some (.pstr s), some (.pdt d) => some ⟨s, d⟩
    | _, _ => none
  | _ => none

/-- The JSON value `_write_manifest` serializes:
`json.dump(list(self.q._queue), fp, cls=ManifestEncoder)`. -/
def encodeManifest (q : List Item) : PyValue :=
  encodePy (.plist (q.map itemToPy))

/-- View a list of decoded manifest entries as queue items. -/
def itemsOfPy : List PyValue → Option (List Item)
  | [] => some []
  | v :: vs =>
    match pyToItem v, itemsOfPy vs with
    | some i, some is => some (i :: is)
    | _, _ => none

/-- View a decoded manifest value as the list of queue items it carries. -/
def manifestItems : PyValue → Option (List Item)
  | .plist l => itemsOfPy l
  | _ => none

def Item.validB (i : Item) : Bool := i.expire_time.validB

/-! ## The buffer state machine

The parts of the filesystem a single `DurableBuffer` touches, and the
buffer's operations, each modelled as run to completion. -/
/-- Raw payload bytes (`data` in `put`). -/
abbrev Bytes := List Nat

/-- On-disk state of one buffer: the `messages` directory (payload files
keyed by identifier) and the `manifest-<key>` file.  `manifest = none` means
the file does not exist; `some (.error raw)` a file whose text `raw` is not
valid JSON; `some (.ok j)` a file whose JSON text parses to `j` (the text
layer of `json.dump`/`json.load` is lossless, so the parsed value stands for
the file content). -/
structure FS where
  files : List (Ident × Bytes)
  manifest : Option (Except (List Char) PyValue)

/-- One buffer: the in-memory `asyncio.Queue` (head = oldest) plus the disk. -/
structure BufState where
  q : List Item
  fs : FS

/-- Model of `open(path, "wb"); fp.write(data)`: create or truncate the payload file. -/
def writeFile (fs : List (Ident × Bytes)) (id : Ident) (d : Bytes) :
    List (Ident × Bytes) :=
  fs.filter (fun e => e.1 != id) ++ [(id, d)]

/-- Model of `os.remove(path)` on a payload file. -/
def removeFile (fs : List (Ident × Bytes)) (id : Ident) : List (Ident × Bytes) :=
  fs.filter (fun e => e.1 != id)

namespace DurableBuffer

/-- A freshly constructed buffer over an empty directory: empty queue, no
payload files, manifest never written. -/
def freshState : BufState := ⟨[], ⟨[], none⟩⟩

/-- Model of `DurableBuffer.put(data)`: write the payload file, append the item to the
queue, then rewrite the manifest with the whole queue.  The freshly generated
`{"ident": str(uuid.uuid4()), "expire_time": utcnow() + 5 minutes}` dict is
passed in as `item` (uuid and clock are environment reads). -/
def put (s : BufState) (item : Item) (data : Bytes) : BufState :=
  ⟨s.q ++ [item],
   ⟨writeFile s.fs.files item.ident data,
    some (.ok (encodeManifest (s.q ++ [item])))⟩⟩

/-- The loop body of `DurableBuffer.get()` with default arguments
(`handle_only=False, delete=True`): pop the head item, rewrite the manifest
with the remaining queue, then open the payload file; on success read and
remove it and return the bytes, on `FileNotFoundError` continue with the next
item.  `none` models the call suspending on an empty queue. -/
def getAux : List Item → FS → Option (Bytes × BufState)
  | [], _ => none
  | m :: rest, fs =>
    let fs1 : FS := ⟨fs.files, some (.ok (encodeManifest rest))⟩
    match List.lookup m.ident fs.files with
    | some data => some (data, ⟨rest, ⟨removeFile fs1.files m.ident, fs1.manifest⟩⟩)
    | none => getAux rest fs1

def get (s : BufState) : Option (Bytes × BufState) := getAux s.q s.fs

/-- Model of `DurableBuffer.get(handle_only=True)`: same loop, but on success the open
handle is returned and the payload file is neither read nor removed.  Only
the resulting buffer state is modelled. -/
def getHandleOnlyAux : List Item → FS → Option BufState
  | [], _ => none
  | m :: rest, fs =>
    let fs1 : FS := ⟨fs.files, some (.ok (encodeManifest rest))⟩
    match List.lookup m.ident fs.files with
    | some _ => some ⟨rest, fs1⟩
    | none => getHandleOnlyAux rest fs1

def getHandleOnly (s : BufState) : Option BufState := getHandleOnlyAux s.q s.fs

/-- The drain loop of `DurableBuffer.expire()`: pop every item; when
`item["expire_time"] > utcnow()` holds, delete its payload file, otherwise
re-insert the item into the fresh queue `acc`. -/
def expireSweep (now : Datetime) :
    List Item → List Item → List (Ident × Bytes) → List Item × List (Ident × Bytes)
  | [], acc, files => (acc, files)
  | i :: rest, acc, files =>
    if Datetime.lt now i.expire_time then
      expireSweep now rest acc (removeFile files i.ident)
    else
      expireSweep now rest (acc ++ [i]) files

/-- Model of `DurableBuffer.expire()`: drain the queue under the manifest lock and
swap in the rebuilt queue.  The manifest file itself is not rewritten. -/
def expire (now : Datetime) (s : BufState) : BufState :=
  let r := expireSweep now s.q [] s.fs.files
  ⟨r.1, ⟨r.2, s.fs.manifest⟩⟩

/-- Errors out of `_read_manifest`. -/
inductive ReadErr where
  | jsonDecodeError (raw : List Char)
  | decodeErr
deriving DecidableEq, Repr

/-- Result of `_read_manifest`: the returned value or raised error, plus what
was logged with `logger.error`. -/
structure ReadResult where
  result : Except ReadErr (List Item)
  logged : List (List Char)

/-- Model of `DurableBuffer._read_manifest()`: a missing file yields `[]`; a file that
is not valid JSON has its raw content logged and the `JSONDecodeError`
re-raised; valid JSON is decoded with `ManifestDecoder` (a failing
`object_hook`, or a shape other than a list of item dicts, is `decodeErr`;
shape errors actually surface later in Python, when `get`/`expire` subscript
the entry, and are folded into the load here for the typed queue). -/
def readManifest : Option (Except (List Char) PyValue) → ReadResult
  | none => ⟨.ok [], []⟩
  | some (.error raw) => ⟨.error (.jsonDecodeError raw), [raw]⟩
  | some (.ok j) =>
    match (decodePy j).bind manifestItems with
    | some items => ⟨.ok items, []⟩
    | none => ⟨.error .decodeErr, []⟩

/-- Outcome of the `os.makedirs(self._message_path, mode=0o700)` call. -/
inductive MkdirErr where
  | fileExists
  | permissionError
  | other
deriving DecidableEq, Repr

/-- The mode argument passed to `os.makedirs` in `__init__`. -/
def makedirsMode : Nat := 0o700

/-- The statement `try: os.makedirs(...) except Exception: pass` in `__init__`: every
exception from directory creation is discarded. -/
def swallowMkdir : Except MkdirErr Unit → Unit
  | .ok _ => ()
  | .error _ => ()

/-- Model of `DurableBuffer.__init__`: attempt to create the messages directory
(outcome `mk`, swallowed), then read the manifest and enqueue its items in
order.  A `_read_manifest` error propagates out of the constructor. -/
def init (mk : Except MkdirErr Unit) (fs : FS) : Except ReadErr BufState :=
  match swallowMkdir mk with
  | () =>
    match readManifest fs.manifest with
    | ⟨.ok items, _⟩ => .ok ⟨items, fs⟩
    | ⟨.error e, _⟩ => .error e

/-- Sequenced `put` completions (completion order). -/
def putMany (s : BufState) (ps : List (Item × Bytes)) : BufState :=
  ps.foldl (fun s p => put s p.1 p.2) s

/-- Run of `n` consecutive completed `get()` calls collecting the returned payloads;
`none` if any of them suspends forever. -/
def getMany : Nat → BufState → Option (List Bytes × BufState)
  | 0, s => some ([], s)
  | n + 1, s =>
    match get s with
    | some (b, s') =>
      match getMany n s' with
      | some (bs, s'') => some (b :: bs, s'')
      | none => none
    | none => none

/-- The payload-store/queue correspondence of §3 of the spec: a payload file
exists exactly for the identifiers currently in the in-memory queue. -/
def PayloadInv (s : BufState) : Prop :=
  ∀ id : Ident, (List.lookup id s.fs.files).isSome = true ↔ id ∈ s.q.map Item.ident

/-- Buffer states reachable from a fresh buffer by completed `put`,
default-argument `get` and `expire` calls; a `put` item carries a freshly
generated identifier (uuid4 never repeats). -/
inductive Reach : BufState → Prop where
  | fresh : Reach freshState
  | step_put {s : BufState} (item : Item) (data : Bytes) :
      Reach s → item.ident ∉ s.q.map Item.ident → Reach (put s item data)
  | step_get {s s' : BufState} {b : Bytes} :
      Reach s → get s = some (b, s') → Reach s'
  | step_expire {s : BufState} (now : Datetime) :
      Reach s → Reach (expire now s)

/-- As `Reach`, but also admitting `get(handle_only=True)` calls, which the
source exposes as part of `get`. -/
inductive ReachAny : BufState → Prop where
  | fresh : ReachAny freshState
  | step_put {s : BufState} (item : Item) (data : Bytes) :
      ReachAny s → item.ident ∉ s.q.map Item.ident → ReachAny (put s item data)
  | step_get {s s' : BufState} {b : Bytes} :
      ReachAny s → get s = some (b, s') → ReachAny s'
  | step_getHandleOnly {s s' : BufState} :
      ReachAny s → getHandleOnly s = some s' → ReachAny s'
  | step_expire {s : BufState} (now : Datetime) :
      ReachAny s → ReachAny (expire now s)

/-- The externally visible steps of one `get()` call, in program order. -/
inductive GetEv where
  | pop (i : Item)
  | saveManifest (m : List Item)
  | openPayload (id : Ident)
deriving DecidableEq, Repr

/-- Step trace of `get()` (default arguments) run on queue `q` with payload
directory `files`: each iteration pops the head, rewrites the manifest with
the remaining queue, then opens the payload file; a hit ends the call (the
following read/close/delete touch no manifest), a `FileNotFoundError` starts
the next iteration. -/
def getTrace : List Item → List (Ident × Bytes) → List GetEv
  | [], _ => []
  | m :: rest, files =>
    .pop m :: .saveManifest rest :: .openPayload m.ident ::
      (match List.lookup m.ident files with
       | some _ => []
       | none => getTrace rest files)

end DurableBuffer

/-! ## Concrete values used by the claim theorems and witnesses -/
def dtPast : Datetime := ⟨2020, 1, 1, 0, 0, 0, 0⟩

def dtFuture : Datetime := ⟨2030, 1, 1, 0, 0, 0, 0⟩

def dtNow : Datetime := ⟨2025, 1, 1, 0, 0, 0, 0⟩

def dtUs : Datetime := ⟨2021, 12, 31, 23, 59, 59, 999999⟩

def dtNoUs : Datetime := ⟨2022, 2, 3, 4, 5, 6, 0⟩

def itemPast : Item := ⟨'p' :: [], dtPast⟩

def itemFuture : Item := ⟨'f' :: [], dtFuture⟩

def wItem1 : Item := ⟨'a' :: [], dtUs⟩

def wItem2 : Item := ⟨'b' :: [], dtNoUs⟩

def hoItem : Item := ⟨'h' :: [], dtUs⟩

def wps : List (Item × Bytes) := [(wItem1, [1, 2]), (wItem2, [3])]

/-! ## Theorems -/

theorem dVal_dChar {n : Nat} (h : n < 10) : dVal (dChar n) = n := by
  interval_cases n <;> rfl

theorem isDig_dChar {n : Nat} (h : n < 10) : isDig (dChar n) = true := by
  interval_cases n <;> rfl

theorem parse2_dChar {n : Nat} (h : n < 100) :
    parse2 (dChar (n / 10 % 10)) (dChar (n % 10)) = some n := by
  have h1 : n / 10 % 10 < 10 := Nat.mod_lt _ (by omega)
  have h2 : n % 10 < 10 := Nat.mod_lt _ (by omega)
  simp [parse2, isDig_dChar h1, isDig_dChar h2, dVal_dChar h1, dVal_dChar h2]
  omega

theorem parse4_dChar {n : Nat} (h : n < 10000) :
    parse4 (dChar (n / 1000 % 10)) (dChar (n / 100 % 10))
      (dChar (n / 10 % 10)) (dChar (n % 10)) = some n := by
  have h1 : n / 1000 % 10 < 10 := Nat.mod_lt _ (by omega)
  have h2 : n / 100 % 10 < 10 := Nat.mod_lt _ (by omega)
  have h3 : n / 10 % 10 < 10 := Nat.mod_lt _ (by omega)
  have h4 : n % 10 < 10 := Nat.mod_lt _ (by omega)
  simp [parse4, isDig_dChar h1, isDig_dChar h2, isDig_dChar h3, isDig_dChar h4,
    dVal_dChar h1, dVal_dChar h2, dVal_dChar h3, dVal_dChar h4]
  omega

theorem parse6_dChar {n : Nat} (h : n < 1000000) :
    parse6 (dChar (n / 100000 % 10)) (dChar (n / 10000 % 10))
      (dChar (n / 1000 % 10)) (dChar (n / 100 % 10))
      (dChar (n / 10 % 10)) (dChar (n % 10)) = some n := by
  have h1 : n / 100000 % 10 < 10 := Nat.mod_lt _ (by omega)
  have h2 : n / 10000 % 10 < 10 := Nat.mod_lt _ (by omega)
  have h3 : n / 1000 % 10 < 10 := Nat.mod_lt _ (by omega)
  have h4 : n / 100 % 10 < 10 := Nat.mod_lt _ (by omega)
  have h5 : n / 10 % 10 < 10 := Nat.mod_lt _ (by omega)
  have h6 : n % 10 < 10 := Nat.mod_lt _ (by omega)
  simp [parse6, isDig_dChar h1, isDig_dChar h2, isDig_dChar h3, isDig_dChar h4,
    isDig_dChar h5, isDig_dChar h6, dVal_dChar h1, dVal_dChar h2, dVal_dChar h3,
    dVal_dChar h4, dVal_dChar h5, dVal_dChar h6]
  omega

/-- Printing a valid datetime with `isoformat` and parsing the result with
`fromisoformat` restores the original value. -/
theorem fromisoformat_isoformat {d : Datetime} (h : d.validB = true) :
    Datetime.fromisoformat d.isoformat = some d := by
  obtain ⟨y, mo, da, hh, mi, s, us⟩ := d
  simp [Datetime.validB] at h
  obtain ⟨⟨⟨⟨⟨⟨⟨⟨⟨-, hy⟩, -⟩, hmo⟩, -⟩, hda⟩, hhh⟩, hmi⟩, hs⟩, hus⟩ := h
  by_cases h0 : us = 0
  · subst h0
    simp only [Datetime.isoformat, reduceIte, Datetime.fromisoformat]
    rw [parse4_dChar (by omega), parse2_dChar (by omega), parse2_dChar (by omega),
      parse2_dChar (by omega), parse2_dChar (by omega), parse2_dChar (by omega)]
    simp
  · simp only [Datetime.isoformat, if_neg h0, Datetime.fromisoformat]
    rw [parse4_dChar (by omega), parse2_dChar (by omega), parse2_dChar (by omega),
      parse2_dChar (by omega), parse2_dChar (by omega), parse2_dChar (by omega),
      parse6_dChar (by omega)]
    simp

theorem decodePy_pdict {l : List (List Char × PyValue)}
    {l' : List (List Char × PyValue)} (h : decodePyDict l = some l') :
    decodePy (.pdict l) = objectHook l' := by
  rw [show decodePy (.pdict l) = (decodePyDict l).bind objectHook from rfl, h]
  rfl

theorem decodePy_pstr (s : List Char) : decodePy (.pstr s) = some (.pstr s) := rfl

theorem decodePyDict_nil : decodePyDict [] = some [] := rfl

theorem decodePyDict_cons {k : List Char} {v w : PyValue}
    {vs ws : List (List Char × PyValue)} (h1 : decodePy v = some w)
    (h2 : decodePyDict vs = some ws) :
    decodePyDict ((k, v) :: vs) = some ((k, w) :: ws) := by
  simp only [decodePyDict, h1, h2]

theorem decodePyList_cons {v w : PyValue} {vs ws : List PyValue}
    (h1 : decodePy v = some w) (h2 : decodePyList vs = some ws) :
    decodePyList (v :: vs) = some (w :: ws) := by
  simp only [decodePyList, h1, h2]

theorem decodePy_tagged_dt {d : Datetime} (h : d.validB = true) :
    decodePy (.pdict [(typeKey, .pstr dtTag), (valueKey, .pstr d.isoformat)]) =
      some (.pdt d) := by
  rw [decodePy_pdict (decodePyDict_cons (decodePy_pstr dtTag)
    (decodePyDict_cons (decodePy_pstr d.isoformat) decodePyDict_nil))]
  have h2 : List.lookup typeKey
      [(typeKey, PyValue.pstr dtTag), (valueKey, PyValue.pstr d.isoformat)] =
      some (PyValue.pstr dtTag) := rfl
  have h3 : List.lookup valueKey
      [(typeKey, PyValue.pstr dtTag), (valueKey, PyValue.pstr d.isoformat)] =
      some (PyValue.pstr d.isoformat) := rfl
  simp only [objectHook, h2, h3, if_pos rfl, if_true, eq_self_iff_true,
    fromisoformat_isoformat h, Option.map_some']

theorem decodePy_encodePy_item {i : Item} (h : i.validB = true) :
    decodePy (encodePy (itemToPy i)) = some (itemToPy i) := by
  have henc : encodePy (itemToPy i) =
      .pdict [(identKey, .pstr i.ident),
        (expTimeKey, .pdict [(typeKey, .pstr dtTag),
          (valueKey, .pstr i.expire_time.isoformat)])] := rfl
  have hinner := decodePy_tagged_dt (d := i.expire_time) h
  rw [henc, decodePy_pdict (decodePyDict_cons (decodePy_pstr i.ident)
    (decodePyDict_cons hinner decodePyDict_nil))]
  rfl

theorem pyToItem_itemToPy (i : Item) : pyToItem (itemToPy i) = some i := by
  rfl

theorem decodePy_encodeManifest {q : List Item}
    (h : ∀ i ∈ q, i.validB = true) :
    decodePy (encodeManifest q) = some (.plist (q.map itemToPy)) := by
  have key : ∀ (l : List Item), (∀ i ∈ l, i.validB = true) →
      decodePyList (encodePyList (l.map itemToPy)) = some (l.map itemToPy) := by
    intro l hl
    induction l with
    | nil => rfl
    | cons a as ih =>
      have ha : a.validB = true := hl a (by simp)
      have has : ∀ i ∈ as, i.validB = true := fun i hi => hl i (by simp [hi])
      simp only [List.map, encodePyList, decodePyList,
        decodePy_encodePy_item ha, ih has]
  have hl : encodePy (.plist (q.map itemToPy)) = .plist (encodePyList (q.map itemToPy)) := rfl
  simp only [encodeManifest, hl, decodePy, key q h, Option.map_some']

theorem itemsOfPy_map_itemToPy (l : List Item) :
    itemsOfPy (l.map itemToPy) = some l := by
  induction l with
  | nil => rfl
  | cons a as ih => simp only [List.map, itemsOfPy, pyToItem_itemToPy, ih]

theorem lookup_cons (a k : Ident) (v : Bytes) (l : List (Ident × Bytes)) :
    List.lookup a ((k, v) :: l) = if a = k then some v else List.lookup a l := by
  by_cases h : a = k
  · subst h
    have hb : (a == a) = true := beq_self_eq_true a
    simp [List.lookup, hb]
  · have hb : (a == k) = false := beq_eq_false_iff_ne.mpr h
    simp [List.lookup, hb, h]

theorem lookup_writeFile (fs : List (Ident × Bytes)) (id id' : Ident) (d : Bytes) :
    List.lookup id' (writeFile fs id d) =
      if id' = id then some d else List.lookup id' fs := by
  induction fs with
  | nil =>
    have : writeFile [] id d = [(id, d)] := rfl
    rw [this, lookup_cons]
  | cons e t ih =>
    obtain ⟨k, v⟩ := e
    by_cases hk : k = id
    · subst hk
      have : (k != k) = false := by simp
      simp only [writeFile, List.filter_cons, this, Bool.false_eq_true,
        if_false] at ih ⊢
      rw [ih, lookup_cons]
      by_cases h : id' = k <;> simp [h]
    · have : (k != id) = true := by simp [hk]
      simp only [writeFile, List.filter_cons, this, if_true] at ih ⊢
      rw [List.cons_append, lookup_cons, lookup_cons]
      by_cases h : id' = k
      · subst h
        simp [hk]
      · simp [h, ih]

theorem lookup_removeFile (fs : List (Ident × Bytes)) (id id' : Ident) :
    List.lookup id' (removeFile fs id) =
      if id' = id then none else List.lookup id' fs := by
  induction fs with
  | nil => by_cases h : id' = id <;> simp [removeFile, List.lookup, h]
  | cons e t ih =>
    obtain ⟨k, v⟩ := e
    by_cases hk : k = id
    · subst hk
      have : (k != k) = false := by simp
      simp only [removeFile, List.filter_cons, this, Bool.false_eq_true,
        if_false] at ih ⊢
      rw [ih, lookup_cons]
      by_cases h : id' = k <;> simp [h]
    · have : (k != id) = true := by simp [hk]
      simp only [removeFile, List.filter_cons, this, if_true] at ih ⊢
      rw [lookup_cons, lookup_cons]
      by_cases h : id' = k
      · subst h
        simp [hk]
      · simp [h, ih]

namespace DurableBuffer

theorem putMany_q (ps : List (Item × Bytes)) :
    ∀ s : BufState, (putMany s ps).q = s.q ++ ps.map Prod.fst := by
  induction ps with
  | nil => intro s; simp [putMany]
  | cons p t ih =>
    intro s
    have : putMany s (p :: t) = putMany (put s p.1 p.2) t := rfl
    rw [this, ih]
    simp [put]

theorem putMany_lookup_not_mem (ps : List (Item × Bytes)) :
    ∀ (s : BufState) (id : Ident), id ∉ ps.map (fun p => p.1.ident) →
      List.lookup id (putMany s ps).fs.files = List.lookup id s.fs.files := by
  induction ps with
  | nil => intro s id _; rfl
  | cons p t ih =>
    intro s id hid
    have h1 : id ≠ p.1.ident := fun h => hid (by simp [h])
    have h2 : id ∉ t.map (fun p => p.1.ident) := fun h => hid (by simp [h])
    have : putMany s (p :: t) = putMany (put s p.1 p.2) t := rfl
    rw [this, ih _ _ h2]
    simp [put, lookup_writeFile, h1]

theorem putMany_lookup_mem (ps : List (Item × Bytes)) :
    ∀ s : BufState, (ps.map (fun p => p.1.ident)).Nodup →
      ∀ p ∈ ps, List.lookup p.1.ident (putMany s ps).fs.files = some p.2 := by
  induction ps with
  | nil => intro s _ p hp; cases hp
  | cons a t ih =>
    intro s hnd p hp
    have hstep : putMany s (a :: t) = putMany (put s a.1 a.2) t := rfl
    rcases List.mem_cons.mp hp with hp | hp
    · subst hp
      have hna : p.1.ident ∉ t.map (fun q => q.1.ident) :=
        (List.nodup_cons.mp hnd).1
      rw [hstep, putMany_lookup_not_mem t _ _ hna]
      simp [put, lookup_writeFile]
    · rw [hstep]
      exact ih _ (List.nodup_cons.mp hnd).2 p hp

theorem putMany_manifest (ps : List (Item × Bytes)) (hne : ps ≠ []) :
    ∀ s : BufState, (putMany s ps).fs.manifest =
      some (.ok (encodeManifest (s.q ++ ps.map Prod.fst))) := by
  induction ps with
  | nil => exact absurd rfl hne
  | cons a t ih =>
    intro s
    have hstep : putMany s (a :: t) = putMany (put s a.1 a.2) t := rfl
    by_cases ht : t = []
    · subst ht
      simp [hstep, putMany, put]
    · rw [hstep, ih ht]
      simp [put]

/-- Reading back a manifest file that `_write_manifest` produced for
queue `q` returns exactly `q` (and logs nothing). -/
theorem readManifest_encodeManifest {q : List Item}
    (h : ∀ i ∈ q, i.validB = true) :
    readManifest (some (.ok (encodeManifest q))) = ⟨.ok q, []⟩ := by
  have hd := decodePy_encodeManifest h
  have hm : manifestItems (.plist (q.map itemToPy)) = some q := by
    simp [manifestItems, itemsOfPy_map_itemToPy]
  simp [readManifest, hd, hm]

theorem getMany_all_present (ps : List (Item × Bytes)) :
    ∀ fs : FS, (ps.map (fun p => p.1.ident)).Nodup →
      (∀ p ∈ ps, List.lookup p.1.ident fs.files = some p.2) →
      ∃ fs', getMany ps.length ⟨ps.map Prod.fst, fs⟩ =
        some (ps.map Prod.snd, ⟨[], fs'⟩) := by
  induction ps with
  | nil => intro fs _ _; exact ⟨fs, rfl⟩
  | cons a t ih =>
    intro fs hnd hlook
    have hhead : List.lookup a.1.ident fs.files = some a.2 :=
      hlook a (by simp)
    have hget : get ⟨a.1 :: t.map Prod.fst, fs⟩ =
        some (a.2, ⟨t.map Prod.fst,
          ⟨removeFile fs.files a.1.ident,
           some (.ok (encodeManifest (t.map Prod.fst)))⟩⟩) := by
      simp [DurableBuffer.get, getAux, hhead]
    have hna : a.1.ident ∉ t.map (fun q => q.1.ident) :=
      (List.nodup_cons.mp hnd).1
    have htail : ∀ p ∈ t, List.lookup p.1.ident
        (removeFile fs.files a.1.ident) = some p.2 := by
      intro p hp
      have hne : p.1.ident ≠ a.1.ident := by
        intro h
        exact hna (h ▸ List.mem_map_of_mem (fun q => q.1.ident) hp)
      rw [lookup_removeFile, if_neg hne]
      exact hlook p (by simp [hp])
    obtain ⟨fs', hfs'⟩ := ih ⟨removeFile fs.files a.1.ident,
      some (.ok (encodeManifest (t.map Prod.fst)))⟩
      (List.nodup_cons.mp hnd).2 htail
    refine ⟨fs', ?_⟩
    have : (a :: t).length = t.length + 1 := rfl
    rw [this]
    simp only [List.map, getMany, hget, hfs']

theorem put_payloadInv {s : BufState} (item : Item) (data : Bytes)
    (hinv : PayloadInv s) (hnd : (s.q.map Item.ident).Nodup)
    (hfresh : item.ident ∉ s.q.map Item.ident) :
    PayloadInv (put s item data) ∧
      ((put s item data).q.map Item.ident).Nodup := by
  constructor
  · intro id
    simp only [put, lookup_writeFile, List.map_append, List.map_cons,
      List.map_nil, List.mem_append, List.mem_cons]
    by_cases h : id = item.ident
    · simp [h]
    · simp only [if_neg h]
      rw [hinv id]
      simp [h]
  · simp only [put, List.map_append, List.map_cons, List.map_nil]
    exact List.Nodup.append hnd (List.nodup_singleton _)
      (by simpa [List.disjoint_singleton] using hfresh)

theorem getAux_payloadInv :
    ∀ (q : List Item) (fs : FS) (b : Bytes) (s' : BufState),
      PayloadInv ⟨q, fs⟩ → (q.map Item.ident).Nodup →
      getAux q fs = some (b, s') →
      PayloadInv s' ∧ (s'.q.map Item.ident).Nodup := by
  intro q
  induction q with
  | nil => intro fs b s' _ _ h; simp [getAux] at h
  | cons m rest ih =>
    intro fs b s' hinv hnd h
    cases hl : List.lookup m.ident fs.files with
    | none =>
      exfalso
      have := (hinv m.ident).mpr (by simp)
      rw [hl] at this
      simp at this
    | some d =>
      simp only [getAux, hl] at h
      injection h with h2
      cases h2
      have hhead : m.ident ∉ rest.map Item.ident :=
        (List.nodup_cons.mp (by simpa using hnd)).1
      constructor
      · intro id
        show (List.lookup id (removeFile fs.files m.ident)).isSome = true ↔ _
        rw [lookup_removeFile]
        by_cases hid : id = m.ident
        · subst hid
          simp [hhead]
        · rw [if_neg hid]
          have hmem := hinv id
          simp only [List.map_cons, List.mem_cons] at hmem
          rw [hmem]
          simp [hid]
      · exact (List.nodup_cons.mp (by simpa using hnd)).2

theorem expireSweep_payloadInv (now : Datetime) :
    ∀ (q acc : List Item) (files : List (Ident × Bytes)),
      (∀ id, (List.lookup id files).isSome = true ↔
        id ∈ (acc ++ q).map Item.ident) →
      ((acc ++ q).map Item.ident).Nodup →
      (∀ id, (List.lookup id (expireSweep now q acc files).2).isSome = true ↔
        id ∈ (expireSweep now q acc files).1.map Item.ident) ∧
      ((expireSweep now q acc files).1.map Item.ident).Nodup := by
  intro q
  induction q with
  | nil =>
    intro acc files hinv hnd
    simp only [List.append_nil] at hinv hnd
    exact ⟨hinv, hnd⟩
  | cons i rest ih =>
    intro acc files hinv hnd
    simp only [List.map_append, List.map_cons] at hnd
    have hd := List.nodup_append.mp hnd
    have hi_acc : i.ident ∉ acc.map Item.ident := fun hmem =>
      hd.2.2 hmem (List.mem_cons_self _ _)
    have hi_rest : i.ident ∉ rest.map Item.ident := (List.nodup_cons.mp hd.2.1).1
    by_cases h : Datetime.lt now i.expire_time
    · have hstep : expireSweep now (i :: rest) acc files =
          expireSweep now rest acc (removeFile files i.ident) := by
        simp [expireSweep, h]
      rw [hstep]
      apply ih
      · intro id
        rw [lookup_removeFile]
        by_cases hid : id = i.ident
        · subst hid
          simp [hi_acc, hi_rest]
        · rw [if_neg hid]
          have hmem := hinv id
          simp only [List.map_append, List.map_cons, List.mem_append,
            List.mem_cons] at hmem ⊢
          rw [hmem]
          simp [hid]
      · simp only [List.map_append]
        refine List.Nodup.append hd.1 (List.nodup_cons.mp hd.2.1).2 ?_
        intro x hx hx'
        exact hd.2.2 hx (List.mem_cons_of_mem _ hx')
    · have hstep : expireSweep now (i :: rest) acc files =
          expireSweep now rest (acc ++ [i]) files := by
        simp [expireSweep, h]
      rw [hstep]
      apply ih
      · intro id
        have hmem := hinv id
        simpa [List.append_assoc] using hmem
      · simpa [List.append_assoc] using hnd

theorem reach_payloadInv {s : BufState} (h : Reach s) :
    PayloadInv s ∧ (s.q.map Item.ident).Nodup := by
  induction h with
  | fresh =>
    constructor
    · intro id
      simp [freshState, List.lookup]
    · simp [freshState]
  | step_put item data hr hfresh ih =>
    exact put_payloadInv item data ih.1 ih.2 hfresh
  | step_get hr hget ih =>
    exact getAux_payloadInv _ _ _ _ ih.1 ih.2 hget
  | step_expire now hr ih =>
    rename_i s
    have key := expireSweep_payloadInv now s.q [] s.fs.files ih.1 ih.2
    exact key

theorem getTrace_save_before_open :
    ∀ (q : List Item) (files : List (Ident × Bytes)) (j : Nat) (id : Ident),
      (q.map Item.ident).Nodup →
      (getTrace q files).get? j = some (.openPayload id) →
      1 ≤ j ∧ ∃ m : List Item,
        (getTrace q files).get? (j - 1) = some (.saveManifest m) ∧
        id ∉ m.map Item.ident := by
  intro q
  induction q with
  | nil => intro files j id _ h; simp [getTrace] at h
  | cons m rest ih =>
    intro files j id hnd h
    have hnd2 : (m.ident :: rest.map Item.ident).Nodup := by simpa using hnd
    have hnd' := List.nodup_cons.mp hnd2
    match j with
    | 0 => rw [getTrace] at h; simp at h
    | 1 => rw [getTrace] at h; simp at h
    | 2 =>
      have hid : m.ident = id := by
        rw [getTrace] at h
        simpa using h
      refine ⟨by omega, rest, ?_, ?_⟩
      · rw [getTrace]
        rfl
      · rw [← hid]
        exact hnd'.1
    | n + 3 =>
      cases hl : List.lookup m.ident files with
      | some d =>
        rw [getTrace] at h
        simp [hl] at h
      | none =>
        have h' : (getTrace rest files).get? n = some (.openPayload id) := by
          rw [getTrace] at h
          simpa [hl] using h
        obtain ⟨h1, mm, h2, h3⟩ := ih files n id hnd'.2 h'
        refine ⟨by omega, mm, ?_, h3⟩
        have heq : (getTrace (m :: rest) files).get? (n + 3 - 1) =
            (getTrace rest files).get? (n - 1) := by
          rw [getTrace]
          rw [show n + 3 - 1 = (n - 1) + 3 from by omega]
          simp [hl]
        rw [heq]
        exact h2

end DurableBuffer

open DurableBuffer

/-- C1 (code_bug evidence).  The claim — and the spec's intended TTL
contract — says `expire()` drops an item whose `expire_time` is at or before
the current time and keeps one whose `expire_time` is in the future.  The
code's condition is inverted (`if expire_time > utcnow(): remove`); at a
concrete queue holding one expired and one future item, the sweep keeps the
expired item (payload untouched) and drops the future item, deleting its
payload file. -/
theorem expire_keeps_past_drops_future :
    DurableBuffer.expire dtNow
        ⟨[itemPast, itemFuture],
         ⟨[(itemPast.ident, [1]), (itemFuture.ident, [2])], none⟩⟩ =
      ⟨[itemPast], ⟨[(itemPast.ident, [1])], none⟩⟩ := rfl

/-- C2: n completed `put`s on a fresh buffer followed by n `get`s return
the payloads in exactly the completion order of the puts (identifiers are
uuid4-fresh, hence pairwise distinct). -/
theorem put_get_fifo (ps : List (Item × Bytes))
    (hnd : (ps.map (fun p => p.1.ident)).Nodup) :
    ∃ fs' : FS,
      getMany ps.length (putMany freshState ps) =
        some (ps.map Prod.snd, ⟨[], fs'⟩) := by
  obtain ⟨fs', h⟩ := getMany_all_present ps (putMany freshState ps).fs hnd
    (putMany_lookup_mem ps freshState hnd)
  refine ⟨fs', ?_⟩
  have hq : (putMany freshState ps).q = ps.map Prod.fst := by
    rw [putMany_q]
    rfl
  have hs : putMany freshState ps =
      ⟨ps.map Prod.fst, (putMany freshState ps).fs⟩ := by
    rw [← hq]
  rw [hs]
  exact h

theorem put_get_fifo_witness :
    (wps.map (fun p => p.1.ident)).Nodup ∧
    ∃ fs' : FS,
      getMany wps.length (putMany freshState wps) =
        some (wps.map Prod.snd, ⟨[], fs'⟩) :=
  ⟨by decide, put_get_fifo wps (by decide)⟩

/-- C3: after n `put`s on a fresh buffer (no `get`, no `expire`), a new
`DurableBuffer` constructed over the same directory re-populates its queue
with the same n item-metadata entries in the same order, and n `get`s on it
yield the same payloads in put order. -/
theorem restart_rebuilds_queue (ps : List (Item × Bytes))
    (hnd : (ps.map (fun p => p.1.ident)).Nodup)
    (hv : ∀ p ∈ ps, p.1.validB = true) :
    ∃ (s2 : BufState) (fs' : FS),
      DurableBuffer.init (.ok ()) (putMany freshState ps).fs = .ok s2 ∧
      s2.q = ps.map Prod.fst ∧
      getMany ps.length s2 = some (ps.map Prod.snd, ⟨[], fs'⟩) := by
  by_cases hps : ps = []
  · subst hps
    exact ⟨⟨[], freshState.fs⟩, freshState.fs, rfl, rfl, rfl⟩
  · have hman := putMany_manifest ps hps freshState
    have hq0 : freshState.q ++ ps.map Prod.fst = ps.map Prod.fst := rfl
    rw [hq0] at hman
    have hvitems : ∀ i ∈ ps.map Prod.fst, i.validB = true := by
      intro i hi
      obtain ⟨p', hp', rfl⟩ := List.mem_map.mp hi
      exact hv p' hp'
    have hread := readManifest_encodeManifest hvitems
    have hinit : DurableBuffer.init (.ok ())
        (putMany freshState ps).fs =
        .ok ⟨ps.map Prod.fst, (putMany freshState ps).fs⟩ := by
      simp only [DurableBuffer.init, swallowMkdir, hman, hread]
    obtain ⟨fs', hget⟩ := getMany_all_present ps (putMany freshState ps).fs
      hnd (putMany_lookup_mem ps freshState hnd)
    exact ⟨⟨ps.map Prod.fst, (putMany freshState ps).fs⟩, fs', hinit, rfl, hget⟩

theorem restart_rebuilds_queue_witness :
    ((wps.map (fun p => p.1.ident)).Nodup ∧ ∀ p ∈ wps, p.1.validB = true) ∧
    ∃ (s2 : BufState) (fs' : FS),
      DurableBuffer.init (.ok ()) (putMany freshState wps).fs = .ok s2 ∧
      s2.q = wps.map Prod.fst ∧
      getMany wps.length s2 = some (wps.map Prod.snd, ⟨[], fs'⟩) :=
  ⟨⟨by decide, by decide⟩, restart_rebuilds_queue wps (by decide) (by decide)⟩

/-- C4: a `get()` call never surfaces a missing payload file: on an empty
queue it suspends; a popped item whose payload file is absent is silently
discarded and the loop continues with the next item; the first item whose
payload file exists has its bytes returned. -/
theorem get_skips_missing_payload :
    (∀ fs : FS, get ⟨[], fs⟩ = none) ∧
    (∀ (m : Item) (rest : List Item) (fs : FS),
      List.lookup m.ident fs.files = none →
      get ⟨m :: rest, fs⟩ =
        get ⟨rest, ⟨fs.files, some (.ok (encodeManifest rest))⟩⟩) ∧
    (∀ (pre rest : List Item) (m : Item) (fs : FS) (d : Bytes),
      (∀ i ∈ pre, List.lookup i.ident fs.files = none) →
      List.lookup m.ident fs.files = some d →
      get ⟨pre ++ m :: rest, fs⟩ =
        some (d, ⟨rest, ⟨removeFile fs.files m.ident,
          some (.ok (encodeManifest rest))⟩⟩)) := by
  refine ⟨fun fs => rfl, ?_, ?_⟩
  · intro m rest fs h
    simp [DurableBuffer.get, getAux, h]
  · intro pre
    induction pre with
    | nil =>
      intro rest m fs d _ hm
      simp [DurableBuffer.get, getAux, hm]
    | cons i pre' ih =>
      intro rest m fs d hpre hm
      have hi : List.lookup i.ident fs.files = none := hpre i (by simp)
      have hstep : get ⟨(i :: pre') ++ m :: rest, fs⟩ =
          getAux (pre' ++ m :: rest)
            ⟨fs.files, some (.ok (encodeManifest (pre' ++ m :: rest)))⟩ := by
        simp [DurableBuffer.get, getAux, hi]
      rw [hstep]
      exact ih rest m
        ⟨fs.files, some (.ok (encodeManifest (pre' ++ m :: rest)))⟩ d
        (fun x hx => hpre x (by simp [hx])) hm

theorem get_skips_missing_payload_witness :
    List.lookup wItem1.ident (FS.files ⟨[], none⟩) = none ∧
    get ⟨[wItem1], ⟨[], none⟩⟩ =
      get ⟨[], ⟨[], some (.ok (encodeManifest []))⟩⟩ :=
  ⟨rfl, get_skips_missing_payload.2.1 wItem1 [] ⟨[], none⟩ rfl⟩

/-- C5: `_read_manifest` treats a missing manifest file as an empty
buffer (no error, nothing logged); a manifest that exists but fails to parse
has its raw content logged and the parse error re-raised, and that error
propagates out of the constructor, whatever the mkdir outcome. -/
theorem read_manifest_error_policy :
    (readManifest none = ⟨.ok [], []⟩) ∧
    (∀ raw : List Char, readManifest (some (.error raw)) =
      ⟨.error (.jsonDecodeError raw), [raw]⟩) ∧
    (∀ (mk : Except MkdirErr Unit) (raw : List Char)
      (files : List (Ident × Bytes)),
      DurableBuffer.init mk ⟨files, some (.error raw)⟩ =
        .error (.jsonDecodeError raw)) := by
  refine ⟨rfl, fun raw => rfl, fun mk raw files => ?_⟩
  cases mk <;> rfl

/-- C6: in every `get()` execution, any step that opens a payload file is
immediately preceded by the manifest rewrite of that same iteration, whose
content is the queue with the popped item removed — so the payload is never
read while the on-disk manifest still lists the popped item as pending. -/
theorem get_saves_manifest_before_open (q : List Item)
    (files : List (Ident × Bytes)) (j : Nat) (id : Ident)
    (hnd : (q.map Item.ident).Nodup)
    (h : (getTrace q files).get? j = some (.openPayload id)) :
    1 ≤ j ∧ ∃ m : List Item,
      (getTrace q files).get? (j - 1) = some (.saveManifest m) ∧
      id ∉ m.map Item.ident :=
  getTrace_save_before_open q files j id hnd h

theorem get_saves_manifest_before_open_witness :
    ((([wItem1] : List Item).map Item.ident).Nodup ∧
      (getTrace [wItem1] [(wItem1.ident, [1])]).get? 2 =
        some (.openPayload wItem1.ident)) ∧
    (1 ≤ 2 ∧ ∃ m : List Item,
      (getTrace [wItem1] [(wItem1.ident, [1])]).get? (2 - 1) =
        some (.saveManifest m) ∧
      wItem1.ident ∉ m.map Item.ident) :=
  ⟨⟨by decide, by decide⟩,
   get_saves_manifest_before_open [wItem1] [(wItem1.ident, [1])] 2
     wItem1.ident (by decide) (by decide)⟩

/-- C7: serializing any list of item-metadata records with
`ManifestEncoder` and deserializing with `ManifestDecoder` yields an equal
list — same order, same identifier strings, and expiry values reconstructed
as timestamps equal to the originals. -/
theorem manifest_roundtrip (q : List Item) (h : ∀ i ∈ q, i.validB = true) :
    (decodePy (encodeManifest q)).bind manifestItems = some q := by
  rw [decodePy_encodeManifest h]
  simp [manifestItems, itemsOfPy_map_itemToPy]

theorem manifest_roundtrip_witness :
    (∀ i ∈ [wItem1, wItem2], i.validB = true) ∧
    (decodePy (encodeManifest [wItem1, wItem2])).bind manifestItems =
      some [wItem1, wItem2] :=
  ⟨by decide, manifest_roundtrip [wItem1, wItem2] (by decide)⟩

/-- C8 (counterexample to the claim as stated): with `get(handle_only=
True)` among the operations, a reachable state has a payload file on disk
whose identifier is no longer in the queue, violating the claimed
"file exists iff identifier queued" equivalence. -/
theorem payload_iff_queued_fails_handle_only :
    ∃ s : BufState, ReachAny s ∧
      ¬ (∀ id : Ident,
        (List.lookup id s.fs.files).isSome = true ↔
          id ∈ s.q.map Item.ident) := by
  refine ⟨⟨[], ⟨[(hoItem.ident, [9])], some (.ok (encodeManifest []))⟩⟩, ?_, ?_⟩
  · have h1 : ReachAny (put freshState hoItem [9]) :=
      ReachAny.step_put hoItem [9] ReachAny.fresh (by simp [freshState])
    have h2 : getHandleOnly (put freshState hoItem [9]) =
        some ⟨[], ⟨[(hoItem.ident, [9])], some (.ok (encodeManifest []))⟩⟩ := rfl
    exact ReachAny.step_getHandleOnly h1 h2
  · intro hiff
    exact absurd ((hiff hoItem.ident).mp rfl) (by simp)

/-- C8 (amended): in every state reachable by completed `put`,
default-argument `get` (`handle_only=False, delete=True`) and `expire`
operations from a fresh buffer, a payload file exists in the messages
directory iff its identifier appears in the in-memory queue. -/
theorem payload_file_iff_queued {s : BufState} (h : Reach s) :
    ∀ id : Ident,
      (List.lookup id s.fs.files).isSome = true ↔ id ∈ s.q.map Item.ident :=
  (reach_payloadInv h).1

theorem payload_file_iff_queued_witness :
    (List.lookup wItem2.ident
        (put freshState wItem2 [7]).fs.files).isSome = true ↔
      wItem2.ident ∈ (put freshState wItem2 [7]).q.map Item.ident :=
  payload_file_iff_queued
    (Reach.step_put wItem2 [7] Reach.fresh (by simp [freshState]))
    wItem2.ident

/-- C9 (counterexample to the claim as stated): the constructor's
`try: os.makedirs(...) except Exception: pass` swallows every exception, not
only directory-already-exists — a permission error during directory creation
is also discarded and construction succeeds. -/
theorem init_swallows_permission_error :
    DurableBuffer.init (.error .permissionError) ⟨[], none⟩ =
      .ok ⟨[], ⟨[], none⟩⟩ := rfl

/-- C9 (amended): the messages directory is created with mode `0o700`
(owner-only: no group/other bits), a pre-existing directory is not an error,
and every filesystem failure from directory creation — not only
directory-already-exists — is swallowed as non-fatal by the constructor. -/
theorem init_mkdir_swallowed_mode_owner_only :
    (∀ (mk : Except MkdirErr Unit) (fs : FS),
      DurableBuffer.init mk fs = DurableBuffer.init (.ok ()) fs) ∧
    makedirsMode = 0o700 ∧ makedirsMode % 64 = 0 ∧ makedirsMode / 64 = 7 := by
  refine ⟨fun mk fs => ?_, rfl, rfl, rfl⟩
  cases mk <;> rfl

/-- C10: the `expire()` sweep rebuilds the queue as exactly the
subsequence of the old queue selected by its keep-condition
(`¬ (expire_time > now)`), in the original order — no reordering,
duplication, or invention of items. -/
theorem expire_queue_is_filter (now : Datetime) (s : BufState) :
    (DurableBuffer.expire now s).q =
      s.q.filter (fun i => !(Datetime.lt now i.expire_time)) := by
  have key : ∀ (q acc : List Item) (files : List (Ident × Bytes)),
      (expireSweep now q acc files).1 =
        acc ++ q.filter (fun i => !(Datetime.lt now i.expire_time)) := by
    intro q
    induction q with
    | nil => intro acc files; simp [expireSweep]
    | cons i rest ih =>
      intro acc files
      by_cases h : Datetime.lt now i.expire_time
      · rw [show expireSweep now (i :: rest) acc files =
            expireSweep now rest acc (removeFile files i.ident) from
            by simp [expireSweep, h], ih]
        simp [List.filter_cons, h]
      · rw [show expireSweep now (i :: rest) acc files =
            expireSweep now rest (acc ++ [i]) files from
            by simp [expireSweep, h], ih]
        simp [List.filter_cons, h]
  have hk := key s.q [] s.fs.files
  simpa [DurableBuffer.expire] using hk

end Receptor
